import Mathlib

/-!
Verification of the gowasm/router repository (src/router.go): the route
pattern compiler (`newRoute`), best-match selection (`findBestRoute`),
the navigation state machine (`Navigate` / `pathChanged` / hash helpers)
and the link interceptor (`InterceptLinks` / `interceptLink`).

Go strings are modelled as `List Char`.  The regular expressions produced
by `newRoute` always have the fixed shape
`^(/lit | /([\w+-]*))* /?$`, so the compiled matcher is embedded as a
list of segments (`Seg`) and its matching semantics (`matchSegs`) is the
semantics of that anchored pattern (literal segments are matched
verbatim, which coincides with Go's regexp behaviour whenever the
literal segments contain no regex metacharacters, as the package
requires).  Stateful methods are embedded as pure functions that return
the updated state together with the list of host-visible effects they
perform.
-/

namespace Router

/-- The character U+007B (opening curly bracket) used by the template syntax. -/
def obrace : Char := Char.ofNat 123

/-- The character U+007D (closing curly bracket) used by the template syntax. -/
def cbrace : Char := Char.ofNat 125

/-- A character of the regex class used for captures in router patterns,
regex class written backslash-w plus the plus and minus signs, i.e.
letters, digits, underscore, plus, minus. -/
def isWordChar (c : Char) : Bool :=
  c.isAlphanum || c == '_' || c == '+' || c == '-'

/-- Model of Go strings.Split with a one-character separator: splits `cs`
at every occurrence of `sep`, keeping empty pieces. -/
def splitOn (sep : Char) : List Char → List (List Char)
  | [] => [[]]
  | c :: cs =>
    match splitOn sep cs with
    | [] => if c == sep then [[], []] else [[c]]
    | p :: ps => if c == sep then [] :: p :: ps else (c :: p) :: ps

/-- Model of removeEmptyStrings in router.go: drops empty pieces. -/
def removeEmptyStrings (strs : List (List Char)) : List (List Char) :=
  strs.filter (fun s => s != [])

/-- One segment of a compiled route pattern: either a literal path segment
emitted verbatim, or a named capturing placeholder (emitted as the
capturing group over the word-plus-minus class). -/
inductive Seg where
  | lit : List Char → Seg
  | param : List Char → Seg
deriving DecidableEq, Repr

/-- Compilation of a single (nonempty) template segment, as in the loop of
newRoute: a segment whose first byte is an opening brace and whose last
byte is a closing brace becomes a capturing placeholder named by the
bytes strictly between the braces; every other segment is a literal. -/
def compileSeg (s : List Char) : Seg :=
  if s.head? == some obrace && s.getLast? == some cbrace then
    Seg.param ((s.drop 1).dropLast)
  else
    Seg.lit s

/-- The segments of a compiled route: split the template on the slash,
discard empty pieces, compile each remaining piece. -/
def segsOf (template : List Char) : List Seg :=
  (removeEmptyStrings (splitOn '/' template)).map compileSeg

/-- The ordered parameter names collected by newRoute: one name per
placeholder segment, in order. -/
def paramNamesOf (segs : List Seg) : List (List Char) :=
  segs.filterMap (fun sg => match sg with
    | Seg.param n => some n
    | Seg.lit _ => none)

/-- Number of capturing groups of the compiled matcher: one per
placeholder segment. -/
def capturingGroups (segs : List Seg) : Nat :=
  segs.countP (fun sg => match sg with
    | Seg.param _ => true
    | Seg.lit _ => false)

/-- Model of the route struct of router.go.  The compiled regexp is
represented by its segment list; the handler is represented by an
opaque-to-the-model numeric identifier. -/
structure route where
  segs : List Seg
  paramNames : List (List Char)
  handler : Nat
deriving DecidableEq, Repr

/-- Model of newRoute: compile the template into the matcher segments and
the ordered parameter names. -/
def newRoute (path : List Char) (handler : Nat) : route :=
  { segs := segsOf path
    paramNames := paramNamesOf (segsOf path)
    handler := handler }

/-- The regex text emitted for one segment by the loop of newRoute. -/
def segPattern : Seg → List Char
  | Seg.lit s => s
  | Seg.param _ => "([\\w+-]*)".data

/-- The full regex text built by newRoute: start with the caret, append a
slash and the segment pattern for every segment, finish with the
optional-trailing-slash-and-dollar suffix. -/
def newRoutePattern (template : List Char) : List Char :=
  ((segsOf template).foldl (fun acc sg => acc ++ '/' :: segPattern sg) "^".data)
    ++ "/?$".data

/-- Matching semantics of the anchored pattern built from `segs` against a
path (FindStringSubmatch of the compiled regexp, returning the list of
captured substrings when the whole path matches).  After all segments
are consumed the remainder must be empty or a single slash (the
optional trailing slash before the dollar anchor); a literal segment
consumes a slash followed by the literal text; a placeholder consumes a
slash followed by the maximal run of word-class characters, which it
captures. -/
def matchSegs : List Seg → List Char → Option (List (List Char))
  | [], cs => if cs == [] || cs == ['/'] then some [] else none
  | Seg.lit s :: rest, cs =>
    match cs with
    | [] => none
    | c :: cs' =>
      if c == '/' && cs'.take s.length == s then matchSegs rest (cs'.drop s.length)
      else none
  | Seg.param _ :: rest, cs =>
    match cs with
    | [] => none
    | c :: cs' =>
      if c == '/' then
        (matchSegs rest (cs'.dropWhile isWordChar)).map
          (fun caps => cs'.takeWhile isWordChar :: caps)
      else none

/-- route.regex.FindStringSubmatch(path), reduced to its capture list:
`some caps` when the path matches, `none` when it does not. -/
def routeMatch (rt : route) (path : List Char) : Option (List (List Char)) :=
  matchSegs rt.segs path

/-- The loop of findBestRoute: scan the remaining routes keeping the
current leastParams counter (Go int, -1 meaning "no match seen yet")
and the current best route with its captures.  A route replaces the
current best exactly when leastParams is -1 or its total match count
(1 + captures) is strictly smaller than leastParams. -/
def findBestAux (path : List Char) :
    List route → Int → Option (route × List (List Char)) →
    Option (route × List (List Char))
  | [], _, best => best
  | rt :: rest, least, best =>
    match routeMatch rt path with
    | none => findBestAux path rest least best
    | some m =>
      if least = -1 ∨ ((m.length : Int) + 1 < least) then
        findBestAux path rest ((m.length : Int) + 1) (some (rt, m))
      else
        findBestAux path rest least best

/-- Model of Router.findBestRoute: run the scan over the registered routes
in registration order starting from leastParams = -1 and no best route. -/
def findBestRoute (routes : List route) (path : List Char) :
    Option (route × List (List Char)) :=
  findBestAux path routes (-1) none

/-- The selection rule as the specification words it: among the routes
whose matcher accepts the path, return the one with the smallest total
match-group count, keeping the earlier-registered route on ties. -/
def specBestMatch (path : List Char) : List route → Option (route × List (List Char))
  | [] => none
  | rt :: rest =>
    match routeMatch rt path, specBestMatch path rest with
    | none, t => t
    | some m, none => some (rt, m)
    | some m, some (rt', m') =>
      if m.length ≤ m'.length then some (rt, m) else some (rt', m')

/-- The mutable fields of the Router struct that the modelled methods
read: the registered routes and the ShouldInterceptLinks flag. -/
structure RouterModel where
  routes : List route
  shouldInterceptLinks : Bool
deriving DecidableEq, Repr

/-- Model of New: a router with no routes. -/
def New (shouldInterceptLinks : Bool) : RouterModel :=
  { routes := [], shouldInterceptLinks := shouldInterceptLinks }

/-- Model of Router.HandleFunc: compile the template and append the route. -/
def handleFunc (r : RouterModel) (path : List Char) (handler : Nat) : RouterModel :=
  { r with routes := r.routes ++ [newRoute path handler] }

/-- The route table obtained by registering the given templates (with
their handler identifiers) in order on a fresh router. -/
def buildTable (regs : List (List Char × Nat)) : List route :=
  (regs.foldl (fun r p => handleFunc r p.1 p.2) (New false)).routes

/-- Which navigation backend the router decided on at startup
(browserSupportsPushState true or false). -/
inductive Backend where
  | native
  | hashFrag
deriving DecidableEq, Repr

/-- A host-visible effect performed by the modelled router methods, in
program order: a history.pushState call, a location.hash assignment, a
synchronous handler invocation with its parameter list (in insertion
order), the fatal log of a routing miss, a run of the link-interception
scan, a preventDefault call on a click event, the deferred (goroutine)
Navigate call made by the click callback, and an out-of-range indexing
panic. -/
inductive Effect where
  | pushHistory : List Char → Effect
  | setHash : List Char → Effect
  | invokeHandler : Nat → List (List Char × List Char) → Effect
  | fatalError : List Char → Effect
  | interceptScan : Effect
  | preventDefault : Effect
  | navigateAsync : List Char → Effect
  | panicked : Effect
deriving DecidableEq, Repr

/-- Whether an effect is a handler invocation. -/
def isInvokeEffect : Effect → Bool
  | Effect.invokeHandler _ _ => true
  | _ => false

/-- Whether an effect is a history push. -/
def isPushEffect : Effect → Bool
  | Effect.pushHistory _ => true
  | _ => false

/-- Whether an effect is a hash assignment. -/
def isSetHashEffect : Effect → Bool
  | Effect.setHash _ => true
  | _ => false

/-- Whether an effect is a fatal routing-miss report. -/
def isFatalEffect : Effect → Bool
  | Effect.fatalError _ => true
  | _ => false

/-- Whether an effect is a run of the link-interception scan. -/
def isScanEffect : Effect → Bool
  | Effect.interceptScan => true
  | _ => false

/-- Whether an effect is an indexing panic. -/
def isPanicEffect : Effect → Bool
  | Effect.panicked => true
  | _ => false

/-- The params map built by the loop of pathChanged, as its underlying
insertion list: entry i pairs paramNames[i] with tokens[i].  The Go
loop indexes paramNames by the token index, so it panics (modelled as
`none`) when there are more tokens than names. -/
def buildParams (names tokens : List (List Char)) :
    Option (List (List Char × List Char)) :=
  if tokens.length ≤ names.length then some (names.zip tokens) else none

/-- Lookup in a Go map built by inserting the pairs of `ps` in order:
later insertions shadow earlier ones. -/
def paramsGet (ps : List (List Char × List Char)) (k : List Char) :
    Option (List Char) :=
  match ps with
  | [] => none
  | (k', v) :: rest =>
    match paramsGet rest k with
    | some r => some r
    | none => if k' == k then some v else none

/-- Effects of Router.pathChanged: find the best route; on a miss, log
the fatal error and call no handler; on a match, build the params map
from paramNames and the captured tokens and invoke the handler. -/
def pathChangedEffects (routes : List route) (path : List Char) : List Effect :=
  match findBestRoute routes path with
  | none => [Effect.fatalError ("Could not find route to match: ".data ++ path)]
  | some (rt, tokens) =>
    match buildParams rt.paramNames tokens with
    | some ps => [Effect.invokeHandler rt.handler ps]
    | none => [Effect.panicked]

/-- Router.pathChanged as a state transformer: it reads the route table
and performs its effects, leaving the router unchanged. -/
def pathChangedRun (r : RouterModel) (path : List Char) :
    RouterModel × List Effect :=
  (r, pathChangedEffects r.routes path)

/-- Effects of Router.Navigate: under the native backend push the path
onto history and then call pathChanged directly; under the hash
backend only assign the hash; in both cases re-run the interception
scan afterwards when ShouldInterceptLinks is set. -/
def navigateEffects (b : Backend) (r : RouterModel) (path : List Char) :
    List Effect :=
  (match b with
   | Backend.native => Effect.pushHistory path :: pathChangedEffects r.routes path
   | Backend.hashFrag => [Effect.setHash path]) ++
  (if r.shouldInterceptLinks then [Effect.interceptScan] else [])

/-- Model of Go strings.SplitN(s, sep, 2) for a one-character separator:
split at the first occurrence of `sep` into two pieces, or return the
single-element list holding `s` when `sep` does not occur. -/
def splitN2 (sep : Char) : List Char → List (List Char)
  | [] => [[]]
  | c :: cs =>
    if c == sep then [[], cs]
    else
      match splitN2 sep cs with
      | [] => [[c]]
      | p :: ps => (c :: p) :: ps

/-- Model of getPathFromHash: index 1 of SplitN(hash, sep, 2); the Go code
panics (modelled as `none`) when the split produced fewer than two
pieces, i.e. when the hash contains no number-sign character. -/
def getPathFromHash (hash : List Char) : Option (List Char) :=
  match splitN2 '#' hash with
  | _ :: second :: _ => some second
  | _ => none

/-- The dispatch performed by the onhashchange callback installed by
watchHash: decode the current location hash and run pathChanged on the
decoded path; `none` models the decoding panic. -/
def watchHashDispatch (routes : List route) (locationHash : List Char) :
    Option (List Effect) :=
  (getPathFromHash locationHash).map (pathChangedEffects routes)

/-- Model of setInitialHash: when the current hash is empty, assign the
root path to the hash; otherwise run pathChanged on the decoded hash
(`none` models the decoding panic on a '#'-free nonempty hash). -/
def setInitialHashRun (routes : List route) (locationHash : List Char) :
    Option (List Effect) :=
  if locationHash == [] then some [Effect.setHash "/".data]
  else (getPathFromHash locationHash).map (pathChangedEffects routes)

/-- Effects of the interceptLink click callback for a link whose href is
`href`: when some route matches the href, prevent the default
navigation and schedule an asynchronous Navigate; otherwise do nothing
and let the default behaviour proceed. -/
def interceptLinkEffects (routes : List route) (href : List Char) : List Effect :=
  match findBestRoute routes href with
  | some _ => [Effect.preventDefault, Effect.navigateAsync href]
  | none => []

/-- Model of strings.HasPrefix on char lists. -/
def startsWith : List Char → List Char → Bool
  | [], _ => true
  | _ :: _, [] => false
  | p :: ps, c :: cs => p == c && startsWith ps cs

/-- Model of Router.InterceptLinks.  The document's anchors are the list
of (href, installed click-listener identifiers) pairs, in document
order; the router state is the stored listener reference and a counter
supplying fresh listener identifiers (AddEventListener wraps the
callback in a fresh object each call and returns it).  The switch of
the Go loop is modelled in source order: an empty href, an absolute
href (http, https or scheme-relative) and a local-anchor href each
return from the whole loop; a root-relative href first removes the
stored listener from the current anchor when one is stored (a no-op
when that listener is not installed on this anchor) and then installs
and stores a fresh listener; any other href is skipped. -/
def interceptLinks :
    List (List Char × List Nat) → Option Nat → Nat →
    List (List Char × List Nat) × Option Nat × Nat
  | [], l, n => ([], l, n)
  | (href, ls) :: rest, l, n =>
    if href == [] then ((href, ls) :: rest, l, n)
    else if startsWith "http://".data href || startsWith "https://".data href
        || startsWith "//".data href then
      ((href, ls) :: rest, l, n)
    else if startsWith "#".data href then
      ((href, ls) :: rest, l, n)
    else if startsWith "/".data href then
      let ls1 := match l with
        | some lid => ls.erase lid
        | none => ls
      let out := interceptLinks rest (some n) (n + 1)
      ((href, ls1 ++ [n]) :: out.1, out.2)
    else
      let out := interceptLinks rest l n
      ((href, ls) :: out.1, out.2)

/-- Iterate the interception scan a number of times over the document
state (anchors, stored listener, fresh-identifier counter). -/
def scanTimes : Nat → List (List Char × List Nat) × Option Nat × Nat →
    List (List Char × List Nat) × Option Nat × Nat
  | 0, st => st
  | m + 1, st => scanTimes m (interceptLinks st.1 st.2.1 st.2.2)

/-- A regex metacharacter (a literal segment containing none of these is
matched verbatim by Go's regexp, as the package's regex-safe-literals
convention requires). -/
def isRegexMeta (c : Char) : Bool :=
  c == '\\' || c == '^' || c == '$' || c == '.' || c == '|' || c == '?' ||
  c == '*' || c == '+' || c == '(' || c == ')' || c == '[' || c == ']' ||
  c == obrace || c == cbrace

/-- All literal segments of a compiled route are regex-safe. -/
def segsLitSafe (segs : List Seg) : Bool :=
  segs.all (fun sg => match sg with
    | Seg.lit s => s.all (fun c => !isRegexMeta c)
    | Seg.param _ => true)

/-- The path obtained by substituting the given values for the
placeholders of a template (presented by its compiled segments):
literal segments are emitted verbatim, each placeholder consumes the
next value, and every segment is preceded by a slash. -/
def substPath : List Seg → List (List Char) → List Char
  | [], _ => []
  | Seg.lit s :: rest, vals => '/' :: (s ++ substPath rest vals)
  | Seg.param _ :: rest, vals =>
    match vals with
    | [] => '/' :: substPath rest []
    | v :: vs => '/' :: (v ++ substPath rest vs)

end Router

namespace Router

/-- Scanning the remaining routes with a current best holding m0 captures
returns the first-minimal match of the remainder when it is strictly
better than the current best, and the current best otherwise. -/
theorem findBestAux_some_eq (path : List Char) (rs : List route) :
    ∀ (rt0 : route) (m0 : List (List Char)),
    findBestAux path rs ((m0.length : Int) + 1) (some (rt0, m0)) =
      match specBestMatch path rs with
      | none => some (rt0, m0)
      | some (rt', m') =>
        if m'.length < m0.length then some (rt', m') else some (rt0, m0) := by
  induction rs with
  | nil => intro rt0 m0; rfl
  | cons rt rest ih =>
    intro rt0 m0
    cases hm : routeMatch rt path with
    | none =>
      simp only [findBestAux, specBestMatch, hm]
      exact ih rt0 m0
    | some m =>
      simp only [findBestAux, specBestMatch, hm]
      rw [ih rt m, ih rt0 m0]
      cases hs : specBestMatch path rest with
      | none =>
        dsimp only
        split_ifs <;> first | rfl | (exfalso; omega) | simp_all
      | some p =>
        obtain ⟨rt', m'⟩ := p
        dsimp only
        by_cases h2 : m.length ≤ m'.length
        · rw [if_pos h2]
          try dsimp only
          split_ifs <;> first | rfl | (exfalso; omega) | simp_all
        · rw [if_neg h2]
          try dsimp only
          split_ifs <;> first | rfl | (exfalso; omega) | simp_all

/-- The best-route scan started from the initial state (leastParams -1,
no best route) computes exactly the specified first-minimal match. -/
theorem findBestAux_none_eq (path : List Char) (rs : List route) :
    findBestAux path rs (-1) none = specBestMatch path rs := by
  induction rs with
  | nil => rfl
  | cons rt rest ih =>
    cases hm : routeMatch rt path with
    | none =>
      simp only [findBestAux, specBestMatch, hm]
      exact ih
    | some m =>
      simp only [findBestAux, specBestMatch, hm]
      rw [findBestAux_some_eq path rest rt m]
      cases hs : specBestMatch path rest with
      | none =>
        dsimp only
        split_ifs <;> first | rfl | (exfalso; omega) | simp_all
      | some p =>
        obtain ⟨rt', m'⟩ := p
        dsimp only
        by_cases h2 : m.length ≤ m'.length
        · rw [if_pos h2]
          try dsimp only
          split_ifs <;> first | rfl | (exfalso; omega) | simp_all
        · rw [if_neg h2]
          try dsimp only
          split_ifs <;> first | rfl | (exfalso; omega) | simp_all

/-- When the specified selection finds no best match, no registered
route's matcher accepts the path. -/
theorem specBestMatch_none (path : List Char) (rs : List route)
    (h : specBestMatch path rs = none) :
    ∀ r ∈ rs, routeMatch r path = none := by
  induction rs with
  | nil => intro r hr; cases hr
  | cons rt rest ih =>
    simp only [specBestMatch] at h
    cases hm : routeMatch rt path with
    | none =>
      rw [hm] at h
      intro r hr
      rcases List.mem_cons.mp hr with rfl | hr'
      · exact hm
      · exact ih h r hr'
    | some m =>
      exfalso
      rw [hm] at h
      cases hs : specBestMatch path rest with
      | none => rw [hs] at h; simp at h
      | some p =>
        obtain ⟨rt', m'⟩ := p
        rw [hs] at h
        dsimp only at h
        split at h <;> simp at h

/-- Soundness and minimality of the specified selection: the returned
route is a registered route, its matcher accepts the path with the
returned captures, and its capture count is minimal among all
registered routes that match the path. -/
theorem specBestMatch_sound (path : List Char) (rs : List route) :
    ∀ (rt : route) (caps : List (List Char)),
    specBestMatch path rs = some (rt, caps) →
    rt ∈ rs ∧ routeMatch rt path = some caps ∧
      ∀ r' ∈ rs, ∀ caps', routeMatch r' path = some caps' →
        caps.length ≤ caps'.length := by
  induction rs with
  | nil => intro rt caps h; simp [specBestMatch] at h
  | cons rt0 rest ih =>
    intro rt caps h
    simp only [specBestMatch] at h
    cases hm : routeMatch rt0 path with
    | none =>
      rw [hm] at h
      obtain ⟨h1, h2, h3⟩ := ih rt caps h
      refine ⟨List.mem_cons_of_mem _ h1, h2, ?_⟩
      intro r' hr' caps' hc'
      rcases List.mem_cons.mp hr' with rfl | hr''
      · rw [hm] at hc'; cases hc'
      · exact h3 r' hr'' caps' hc'
    | some m =>
      rw [hm] at h
      cases hs : specBestMatch path rest with
      | none =>
        rw [hs] at h
        dsimp only at h
        obtain ⟨rfl, rfl⟩ : rt0 = rt ∧ m = caps := by
          injection h with h'; injection h' with ha hb; exact ⟨ha, hb⟩
        refine ⟨List.mem_cons_self _ _, hm, ?_⟩
        intro r' hr' caps' hc'
        rcases List.mem_cons.mp hr' with rfl | hr''
        · rw [hm] at hc'
          injection hc' with he
          exact le_of_eq (congrArg List.length he)
        · rw [specBestMatch_none path rest hs r' hr''] at hc'; cases hc'
      | some p =>
        obtain ⟨rt', m'⟩ := p
        rw [hs] at h
        dsimp only at h
        obtain ⟨h1', h2', h3'⟩ := ih rt' m' hs
        by_cases h2 : m.length ≤ m'.length
        · rw [if_pos h2] at h
          obtain ⟨rfl, rfl⟩ : rt0 = rt ∧ m = caps := by
            injection h with h'; injection h' with ha hb; exact ⟨ha, hb⟩
          refine ⟨List.mem_cons_self _ _, hm, ?_⟩
          intro r' hr' caps' hc'
          rcases List.mem_cons.mp hr' with rfl | hr''
          · rw [hm] at hc'
            injection hc' with he
            exact le_of_eq (congrArg List.length he)
          · have := h3' r' hr'' caps' hc'
            omega
        · rw [if_neg h2] at h
          obtain ⟨rfl, rfl⟩ : rt' = rt ∧ m' = caps := by
            injection h with h'; injection h' with ha hb; exact ⟨ha, hb⟩
          refine ⟨List.mem_cons_of_mem _ h1', h2', ?_⟩
          intro r' hr' caps' hc'
          rcases List.mem_cons.mp hr' with rfl | hr''
          · rw [hm] at hc'
            injection hc' with he
            have hlen := congrArg List.length he
            omega
          · exact h3' r' hr'' caps' hc'

/-- C1: for every registered route table and every path, best-match
lookup evaluates each registered route's matcher in registration order
and returns the first route whose total match-group count (1 plus the
number of captures) is minimal among all matching routes, equal counts
keeping the earlier route (a route replaces the current best only when
its count is strictly smaller); the result is therefore a registered
matching route of minimal capture count, and with "/todos/work" and
"/todos/{category}" both registered, looking up "/todos/work" selects
the zero-parameter route. -/
theorem findBestRoute_matches_spec :
    (∀ (routes : List route) (path : List Char),
      findBestRoute routes path = specBestMatch path routes) ∧
    (∀ (routes : List route) (path : List Char) (rt : route)
        (caps : List (List Char)),
      findBestRoute routes path = some (rt, caps) →
        rt ∈ routes ∧ routeMatch rt path = some caps ∧
          ∀ r' ∈ routes, ∀ caps', routeMatch r' path = some caps' →
            caps.length ≤ caps'.length) ∧
    findBestRoute [newRoute "/todos/work".data 0, newRoute "/todos/{category}".data 1]
        "/todos/work".data = some (newRoute "/todos/work".data 0, []) := by
  refine ⟨?_, ?_, by decide⟩
  · intro routes path
    exact findBestAux_none_eq path routes
  · intro routes path rt caps h
    have h' : specBestMatch path routes = some (rt, caps) := by
      rw [← findBestAux_none_eq path routes]; exact h
    exact specBestMatch_sound path routes rt caps h' 

/-- The minimality part of the C1 theorem evaluated on the two-route
table of the specification's example: the selected zero-parameter
route matches "/todos/work" with no captures. -/
theorem findBestRoute_matches_spec_witness :
    newRoute "/todos/work".data 0 ∈
        [newRoute "/todos/work".data 0, newRoute "/todos/{category}".data 1] ∧
      routeMatch (newRoute "/todos/work".data 0) "/todos/work".data = some [] :=
  ⟨(findBestRoute_matches_spec.2.1
      [newRoute "/todos/work".data 0, newRoute "/todos/{category}".data 1]
      "/todos/work".data (newRoute "/todos/work".data 0) [] (by decide)).1,
   (findBestRoute_matches_spec.2.1
      [newRoute "/todos/work".data 0, newRoute "/todos/{category}".data 1]
      "/todos/work".data (newRoute "/todos/work".data 0) [] (by decide)).2.1⟩

/-- Left-folding the per-segment emission of newRoute appends, after the
accumulator, the concatenation of the emitted pieces. -/
theorem foldl_emit_eq (l : List Seg) :
    ∀ a : List Char,
    l.foldl (fun acc sg => acc ++ '/' :: segPattern sg) a =
      a ++ (l.map (fun sg => '/' :: segPattern sg)).flatten := by
  induction l with
  | nil => intro a; simp
  | cons sg rest ih =>
    intro a
    simp only [List.foldl, List.map, List.flatten_cons, ih, List.append_assoc]

/-- C3: compilation splits the template on the slash, discards empty
segments, emits the capturing word-class pattern for each
brace-wrapped segment while collecting its unwrapped name in order,
emits other segments verbatim, and produces the caret-anchored pattern
consisting of a slash-prefixed piece per segment followed by the
optional-trailing-slash dollar anchor; consequently the empty template
compiles to a matcher accepting exactly the empty path or the single
slash, and the brace-pair-only segment is accepted, contributing an
empty parameter name and a capturing group. -/
theorem newRoute_pattern_shape :
    (∀ template : List Char,
      newRoutePattern template =
        "^".data ++
          ((segsOf template).map (fun sg => '/' :: segPattern sg)).flatten ++
          "/?$".data) ∧
    (∀ cs : List Char,
      (matchSegs (segsOf "".data) cs).isSome = (cs == [] || cs == ['/'])) ∧
    (newRoute "\x7b\x7d".data 0).paramNames = [[]] ∧
    newRoutePattern "\x7b\x7d".data = "^/([\\w+-]*)/?$".data ∧
    routeMatch (newRoute "\x7b\x7d".data 0) "/abc".data = some ["abc".data] := by
  refine ⟨?_, ?_, by decide, by decide, by decide⟩
  · intro template
    unfold newRoutePattern
    rw [foldl_emit_eq]
  · intro cs
    have hseg : segsOf "".data = [] := rfl
    rw [hseg]
    have hmk : matchSegs [] cs = if cs == [] || cs == ['/'] then some [] else none := rfl
    rw [hmk]
    cases h : (cs == [] || cs == ['/']) <;> simp [h]

/-- The number of parameter names collected by compilation equals the
number of capturing groups of the compiled matcher. -/
theorem paramNamesOf_length (segs : List Seg) :
    (paramNamesOf segs).length = capturingGroups segs := by
  induction segs with
  | nil => rfl
  | cons sg rest ih =>
    cases sg <;>
      simp [paramNamesOf, capturingGroups, List.countP_cons, ih] <;>
      simp [paramNamesOf, capturingGroups] at ih <;> omega

/-- A successful match of the compiled pattern returns exactly one
capture per capturing group. -/
theorem matchSegs_length (segs : List Seg) :
    ∀ cs caps, matchSegs segs cs = some caps →
      caps.length = capturingGroups segs := by
  induction segs with
  | nil =>
    intro cs caps h
    simp only [matchSegs] at h
    split at h
    · injection h with h'
      subst h'
      rfl
    · cases h
  | cons sg rest ih =>
    cases sg with
    | lit s =>
      intro cs caps h
      cases cs with
      | nil => simp [matchSegs] at h
      | cons c cs' =>
        simp only [matchSegs] at h
        split at h
        · have := ih _ _ h
          simp only [capturingGroups, List.countP_cons] at *
          simpa using this
        · cases h
    | param n =>
      intro cs caps h
      cases cs with
      | nil => simp [matchSegs] at h
      | cons c cs' =>
        simp only [matchSegs] at h
        split at h
        · cases hr : matchSegs rest (cs'.dropWhile isWordChar) with
          | none => rw [hr] at h; cases h
          | some caps' =>
            rw [hr] at h
            injection h with h'
            subst h'
            have := ih _ _ hr
            simp only [capturingGroups, List.countP_cons] at this ⊢
            simp [this]
        · cases h

/-- Splitting off a maximal predicate-run: when every character of the
first part satisfies the predicate and the second part is empty or
starts with a slash that does not, takeWhile returns exactly the first
part and dropWhile exactly the second. -/
theorem takeWhile_all_append (p : Char → Bool) (l1 l2 : List Char)
    (h1 : ∀ c ∈ l1, p c = true)
    (h2 : l2 = [] ∨ ∃ t, l2 = '/' :: t) (hp : p '/' = false) :
    (l1 ++ l2).takeWhile p = l1 ∧ (l1 ++ l2).dropWhile p = l2 := by
  induction l1 with
  | nil =>
    rcases h2 with rfl | ⟨t, rfl⟩
    · exact ⟨rfl, rfl⟩
    · constructor
      · simp [List.takeWhile_cons, hp]
      · simp [List.dropWhile_cons, hp]
  | cons c l1 ih =>
    have hc : p c = true := h1 c (List.mem_cons_self _ _)
    obtain ⟨iht, ihd⟩ := ih (fun x hx => h1 x (List.mem_cons_of_mem _ hx))
    constructor
    · simp [List.takeWhile_cons, hc, iht]
    · simp [List.dropWhile_cons, hc, ihd]

/-- A substituted path is empty or starts with a slash. -/
theorem substPath_shape (segs : List Seg) (vals : List (List Char)) :
    substPath segs vals = [] ∨ ∃ t, substPath segs vals = '/' :: t := by
  cases segs with
  | nil => exact Or.inl rfl
  | cons sg rest =>
    cases sg with
    | lit s => exact Or.inr ⟨_, rfl⟩
    | param n =>
      cases vals with
      | nil => exact Or.inr ⟨_, rfl⟩
      | cons v vs => exact Or.inr ⟨_, rfl⟩

/-- Round trip at the segment level: matching the compiled pattern
against the path obtained by substituting capturable values for its
placeholders recovers exactly the substituted values. -/
theorem matchSegs_substPath (segs : List Seg) :
    ∀ vals : List (List Char),
    (∀ v ∈ vals, ∀ c ∈ v, isWordChar c = true) →
    vals.length = capturingGroups segs →
    matchSegs segs (substPath segs vals) = some vals := by
  induction segs with
  | nil =>
    intro vals _ hk
    have : vals = [] := List.eq_nil_of_length_eq_zero (by simpa [capturingGroups] using hk)
    subst this
    rfl
  | cons sg rest ih =>
    cases sg with
    | lit s =>
      intro vals hv hk
      have hk' : vals.length = capturingGroups rest := by
        simpa [capturingGroups, List.countP_cons] using hk
      show matchSegs (Seg.lit s :: rest) ('/' :: (s ++ substPath rest vals)) = some vals
      simp only [matchSegs]
      rw [if_pos]
      · rw [List.drop_left]
        exact ih vals hv hk'
      · simp [List.take_left]
    | param n =>
      intro vals hv hk
      have hk1 : vals.length = capturingGroups rest + 1 := by
        simpa [capturingGroups, List.countP_cons] using hk
      cases vals with
      | nil => simp at hk1
      | cons v vs =>
        show matchSegs (Seg.param n :: rest) ('/' :: (v ++ substPath rest vs)) = some (v :: vs)
        simp only [matchSegs]
        rw [if_pos (by simp)]
        obtain ⟨ht, hd⟩ := takeWhile_all_append isWordChar v (substPath rest vs)
          (fun c hc => hv v (List.mem_cons_self _ _) c hc)
          (substPath_shape rest vs) (by decide)
        have hk2 : vs.length = capturingGroups rest := by
          simp only [List.length_cons] at hk1
          omega
        rw [ht, hd, ih vs (fun w hw => hv w (List.mem_cons_of_mem _ hw)) hk2]
        rfl

/-- Looking up a key absent from the name list in the zipped insertion
list finds nothing. -/
theorem paramsGet_zip_not_mem (ns : List (List Char)) :
    ∀ (vs : List (List Char)) (k : List Char), k ∉ ns →
      paramsGet (ns.zip vs) k = none := by
  induction ns with
  | nil => intro vs k _; cases vs <;> rfl
  | cons n ns ih =>
    intro vs k hk
    cases vs with
    | nil => rfl
    | cons v vs =>
      rw [List.zip_cons_cons]
      simp only [paramsGet]
      rw [ih vs k (fun hmem => hk (List.mem_cons_of_mem _ hmem))]
      have hne : (n == k) = false := by
        simp only [beq_eq_false_iff_ne, ne_eq]
        intro hnk
        exact hk (hnk ▸ List.mem_cons_self _ _)
      rw [hne]
      rfl

/-- With pairwise-distinct names, looking up the i-th name in the map
built by inserting names and values pairwise in order yields the i-th
value. -/
theorem paramsGet_zip_get (ns : List (List Char)) :
    ∀ (vs : List (List Char)), ns.Nodup →
    ∀ i (hi : i < ns.length) (hi2 : i < vs.length),
      paramsGet (ns.zip vs) (ns.get ⟨i, hi⟩) = some (vs.get ⟨i, hi2⟩) := by
  induction ns with
  | nil => intro vs _ i hi; cases hi
  | cons n ns ih =>
    intro vs hnd i hi hi2
    cases vs with
    | nil => cases hi2
    | cons v vs =>
      cases i with
      | zero =>
        rw [List.zip_cons_cons]
        simp only [paramsGet, List.get]
        rw [paramsGet_zip_not_mem ns vs n (List.nodup_cons.mp hnd).1]
        simp
      | succ j =>
        rw [List.zip_cons_cons]
        simp only [paramsGet, List.get]
        rw [ih vs (List.nodup_cons.mp hnd).2 j (Nat.lt_of_succ_lt_succ hi)
          (Nat.lt_of_succ_lt_succ hi2)]

/-- C2: for every template whose literal segments are regex-safe and
every choice of capturable placeholder values (one per placeholder,
names pairwise distinct), compiling the template and matching the path
obtained by substituting the values into the placeholders captures
exactly the substituted values, and the parameter map built from the
captures sends each placeholder name to the value substituted for it. -/
theorem compile_match_round_trip (template : List Char)
    (vals : List (List Char))
    (hsafe : segsLitSafe (segsOf template) = true)
    (hv : ∀ v ∈ vals, ∀ c ∈ v, isWordChar c = true)
    (hk : vals.length = capturingGroups (segsOf template))
    (hnd : (newRoute template 0).paramNames.Nodup) :
    routeMatch (newRoute template 0) (substPath (segsOf template) vals) =
      some vals ∧
    ∀ i (hi : i < (newRoute template 0).paramNames.length)
        (hi2 : i < vals.length),
      paramsGet ((newRoute template 0).paramNames.zip vals)
          ((newRoute template 0).paramNames.get ⟨i, hi⟩) =
        some (vals.get ⟨i, hi2⟩) := by
  constructor
  · exact matchSegs_substPath (segsOf template) vals hv hk
  · exact paramsGet_zip_get (newRoute template 0).paramNames vals hnd

/-- The C2 round trip evaluated on the template "/todos/{category}" with
the value "work": matching the substituted path captures exactly
"work", and the parameter map sends "category" to "work". -/
theorem compile_match_round_trip_witness :
    routeMatch (newRoute "/todos/{category}".data 0)
        (substPath (segsOf "/todos/{category}".data) ["work".data]) =
      some ["work".data] ∧
    paramsGet ((newRoute "/todos/{category}".data 0).paramNames.zip
        ["work".data]) "category".data = some "work".data := by
  have h := compile_match_round_trip "/todos/{category}".data ["work".data]
    (by decide) (by decide) (by decide) (by decide)
  exact ⟨h.1, h.2 0 (by decide) (by decide)⟩

/-- Registering a list of templates on any starting router appends the
compiled routes, in order, to the starting route table. -/
theorem handleFunc_foldl_routes (regs : List (List Char × Nat)) :
    ∀ r : RouterModel,
    (regs.foldl (fun r p => handleFunc r p.1 p.2) r).routes =
      r.routes ++ regs.map (fun p => newRoute p.1 p.2) := by
  induction regs with
  | nil => intro r; simp
  | cons p rest ih =>
    intro r
    simp only [List.foldl, List.map]
    rw [ih]
    simp [handleFunc, List.append_assoc]

/-- The route table built by registering templates on a fresh router is
the list of compiled routes in registration order. -/
theorem buildTable_eq (regs : List (List Char × Nat)) :
    buildTable regs = regs.map (fun p => newRoute p.1 p.2) := by
  unfold buildTable
  rw [handleFunc_foldl_routes]
  rfl

/-- Every route of a built table is the compilation of one of the
registered templates. -/
theorem buildTable_mem (regs : List (List Char × Nat)) (rt : route)
    (h : rt ∈ buildTable regs) :
    ∃ p ∈ regs, rt = newRoute p.1 p.2 := by
  rw [buildTable_eq] at h
  obtain ⟨p, hp, hpe⟩ := List.mem_map.mp h
  exact ⟨p, hp, hpe.symm⟩

/-- On a table built by registration, pathChanged invokes exactly one
handler when some route matches and none otherwise, and it never hits
the out-of-range parameter indexing. -/
theorem pathChangedEffects_counts (regs : List (List Char × Nat))
    (path : List Char) :
    (pathChangedEffects (buildTable regs) path).countP isInvokeEffect =
      (if (findBestRoute (buildTable regs) path).isSome then 1 else 0) ∧
    (pathChangedEffects (buildTable regs) path).countP isPanicEffect = 0 := by
  cases hfb : findBestRoute (buildTable regs) path with
  | none =>
    simp [pathChangedEffects, hfb, isInvokeEffect, isPanicEffect,
      List.countP_cons, List.countP_nil]
  | some p =>
    obtain ⟨rt, toks⟩ := p
    have hspec : specBestMatch path (buildTable regs) = some (rt, toks) := by
      rw [← findBestAux_none_eq path (buildTable regs)]
      exact hfb
    obtain ⟨hmem, hmatch, _⟩ :=
      specBestMatch_sound path (buildTable regs) rt toks hspec
    obtain ⟨q, _, rfl⟩ := buildTable_mem regs rt hmem
    have hlen : toks.length = (newRoute q.1 q.2).paramNames.length := by
      have h1 := matchSegs_length (newRoute q.1 q.2).segs path toks hmatch
      have h2 := paramNamesOf_length (segsOf q.1)
      show toks.length = (paramNamesOf (segsOf q.1)).length
      rw [h2]
      exact h1
    have hbp : buildParams (newRoute q.1 q.2).paramNames toks =
        some ((newRoute q.1 q.2).paramNames.zip toks) := by
      unfold buildParams
      rw [if_pos (le_of_eq hlen)]
    simp [pathChangedEffects, hfb, hbp, isInvokeEffect, isPanicEffect,
      List.countP_cons, List.countP_nil]

/-- C9: every route ever appended to a route table carries exactly one
parameter name per capturing group of its compiled matcher, every
successful match yields exactly one capture per parameter name, and
consequently the positional parameter-map construction of pathChanged
never indexes out of range on a built table. -/
theorem paramNames_capture_alignment (regs : List (List Char × Nat)) :
    (∀ rt, rt ∈ buildTable regs →
      rt.paramNames.length = capturingGroups rt.segs ∧
      ∀ path caps, routeMatch rt path = some caps →
        caps.length = rt.paramNames.length) ∧
    (∀ path,
      (pathChangedEffects (buildTable regs) path).countP isPanicEffect = 0) := by
  constructor
  · intro rt hmem
    obtain ⟨q, _, rfl⟩ := buildTable_mem regs rt hmem
    constructor
    · exact paramNamesOf_length (segsOf q.1)
    · intro path caps hc
      have h1 := matchSegs_length (newRoute q.1 q.2).segs path caps hc
      have h2 := paramNamesOf_length (segsOf q.1)
      show caps.length = (paramNamesOf (segsOf q.1)).length
      rw [h2]
      exact h1
  · intro path
    exact (pathChangedEffects_counts regs path).2

/-- The C9 alignment evaluated on the table holding the single template
"/todos/{category}": one parameter name, one capturing group, and the
match of "/todos/work" yields exactly one capture. -/
theorem paramNames_capture_alignment_witness :
    (newRoute "/todos/{category}".data 7).paramNames.length =
      capturingGroups (newRoute "/todos/{category}".data 7).segs ∧
    (["work".data] : List (List Char)).length =
      (newRoute "/todos/{category}".data 7).paramNames.length :=
  ⟨((paramNames_capture_alignment [("/todos/{category}".data, 7)]).1
      (newRoute "/todos/{category}".data 7) (by decide)).1,
   ((paramNames_capture_alignment [("/todos/{category}".data, 7)]).1
      (newRoute "/todos/{category}".data 7) (by decide)).2
      "/todos/work".data ["work".data] (by decide)⟩

/-- C7: whenever no registered route matches the path, pathChanged leaves
the router (and so its route table) unchanged, invokes no handler, and
reports the fatal routing-miss error exactly once, with the miss
message naming the path. -/
theorem pathChanged_miss_reports_fatal (r : RouterModel) (path : List Char)
    (h : findBestRoute r.routes path = none) :
    pathChangedRun r path =
      (r, [Effect.fatalError ("Could not find route to match: ".data ++ path)]) ∧
    (pathChangedEffects r.routes path).countP isInvokeEffect = 0 ∧
    (pathChangedEffects r.routes path).countP isFatalEffect = 1 := by
  refine ⟨?_, ?_, ?_⟩ <;>
    simp [pathChangedRun, pathChangedEffects, h, isInvokeEffect, isFatalEffect,
      List.countP_cons, List.countP_nil]

/-- The C7 miss behaviour evaluated on the empty route table and the path
"/nonexistent": the router is unchanged and exactly the fatal report
is emitted. -/
theorem pathChanged_miss_reports_fatal_witness :
    pathChangedRun (New false) "/nonexistent".data =
      ((New false),
        [Effect.fatalError
          ("Could not find route to match: ".data ++ "/nonexistent".data)]) :=
  (pathChanged_miss_reports_fatal (New false) "/nonexistent".data (by decide)).1

/-- C8: the installed click callback suppresses the default navigation
and schedules an asynchronous Navigate exactly when best-match lookup
finds a route matching the link's target; when no route matches it
performs no effect at all, so default behaviour proceeds and no error
is ever raised by link interception. -/
theorem interceptLink_match_gating (routes : List route) (href : List Char) :
    interceptLinkEffects routes href =
      (if (findBestRoute routes href).isSome then
        [Effect.preventDefault, Effect.navigateAsync href]
      else []) ∧
    (interceptLinkEffects routes href).countP isFatalEffect = 0 ∧
    (interceptLinkEffects routes href).countP isPanicEffect = 0 := by
  cases h : findBestRoute routes href <;>
    simp [interceptLinkEffects, h, isFatalEffect, isPanicEffect,
      List.countP_cons, List.countP_nil]

/-- pathChanged performs no history push, no hash assignment and no
interception scan: its only effects are a handler invocation, a fatal
report, or the indexing panic. -/
theorem pathChangedEffects_other_counts (routes : List route)
    (path : List Char) :
    (pathChangedEffects routes path).countP isPushEffect = 0 ∧
    (pathChangedEffects routes path).countP isSetHashEffect = 0 ∧
    (pathChangedEffects routes path).countP isScanEffect = 0 := by
  unfold pathChangedEffects
  cases findBestRoute routes path with
  | none =>
    simp [isPushEffect, isSetHashEffect, isScanEffect,
      List.countP_cons, List.countP_nil]
  | some p =>
    obtain ⟨rt, toks⟩ := p
    cases hbp : buildParams rt.paramNames toks <;>
      simp [hbp, isPushEffect, isSetHashEffect, isScanEffect,
        List.countP_cons, List.countP_nil]

/-- C6: on a built route table, Navigate under the native-history backend
pushes the path onto host history exactly once, then directly performs
the pathChanged dispatch (invoking the matching handler exactly once
when a route matches), mutates no hash; under the hash-fragment
backend it only assigns the hash and invokes no handler directly,
while the host's hash-changed notification for the resulting hash
performs exactly the pathChanged dispatch, invoking the matching
handler exactly once; under either backend the interception scan
re-runs afterwards exactly when link interception is enabled. -/
theorem navigate_backend_effects (regs : List (List Char × Nat)) (si : Bool)
    (path : List Char) :
    navigateEffects Backend.native ⟨buildTable regs, si⟩ path =
      Effect.pushHistory path ::
        (pathChangedEffects (buildTable regs) path ++
          (if si then [Effect.interceptScan] else [])) ∧
    (navigateEffects Backend.native ⟨buildTable regs, si⟩ path).countP
        isPushEffect = 1 ∧
    (navigateEffects Backend.native ⟨buildTable regs, si⟩ path).countP
        isSetHashEffect = 0 ∧
    (navigateEffects Backend.native ⟨buildTable regs, si⟩ path).countP
        isInvokeEffect =
      (if (findBestRoute (buildTable regs) path).isSome then 1 else 0) ∧
    navigateEffects Backend.hashFrag ⟨buildTable regs, si⟩ path =
      Effect.setHash path :: (if si then [Effect.interceptScan] else []) ∧
    (navigateEffects Backend.hashFrag ⟨buildTable regs, si⟩ path).countP
        isInvokeEffect = 0 ∧
    (navigateEffects Backend.hashFrag ⟨buildTable regs, si⟩ path).countP
        isPushEffect = 0 ∧
    watchHashDispatch (buildTable regs) ('#' :: path) =
      some (pathChangedEffects (buildTable regs) path) ∧
    (pathChangedEffects (buildTable regs) path).countP isInvokeEffect =
      (if (findBestRoute (buildTable regs) path).isSome then 1 else 0) ∧
    (navigateEffects Backend.native ⟨buildTable regs, si⟩ path).countP
        isScanEffect = (if si then 1 else 0) ∧
    (navigateEffects Backend.hashFrag ⟨buildTable regs, si⟩ path).countP
        isScanEffect = (if si then 1 else 0) := by
  obtain ⟨hinv, _⟩ := pathChangedEffects_counts regs path
  obtain ⟨hpush, hsh, hscan⟩ :=
    pathChangedEffects_other_counts (buildTable regs) path
  refine ⟨rfl, ?_, ?_, ?_, ?_, ?_, ?_, rfl, hinv, ?_, ?_⟩
  · cases si <;>
      simp [navigateEffects, List.countP_cons, List.countP_append,
        List.countP_nil, isPushEffect, hpush]
  · cases si <;>
      simp [navigateEffects, List.countP_cons, List.countP_append,
        List.countP_nil, isSetHashEffect, hsh]
  · cases si <;>
      simp [navigateEffects, List.countP_cons, List.countP_append,
        List.countP_nil, isInvokeEffect, hinv]
  · cases si <;> simp [navigateEffects]
  · cases si <;>
      simp [navigateEffects, List.countP_cons, List.countP_append,
        List.countP_nil, isInvokeEffect]
  · cases si <;>
      simp [navigateEffects, List.countP_cons, List.countP_append,
        List.countP_nil, isPushEffect]
  · cases si <;>
      simp [navigateEffects, List.countP_cons, List.countP_append,
        List.countP_nil, isScanEffect, hscan]
  · cases si <;>
      simp [navigateEffects, List.countP_cons, List.countP_append,
        List.countP_nil, isScanEffect]

/-- C4 (reference behaviour refuted): two interception scans over a
document holding the two root-relative anchors "/a" and "/b" leave two
click listeners installed on each anchor, not one.  The stored
listener reference always points at the listener installed on the
anchor processed last, so the removal performed while re-processing an
earlier anchor is a no-op and its listeners accumulate, one per scan. -/
theorem interceptLinks_listener_accumulation :
    scanTimes 2 ([("/a".data, []), ("/b".data, [])], none, 0) =
      ([("/a".data, [0, 2]), ("/b".data, [1, 3])], some 3, 4) ∧
    (scanTimes 2 ([("/a".data, []), ("/b".data, [])], none, 0)).1.map
        (fun a => a.2.length) = [2, 2] :=
  ⟨by decide, by decide⟩

/-- C5 counterexample: with an absolute-URL anchor followed by a
root-relative anchor, the scan exits at the absolute anchor, so the
root-relative anchor after it receives no click listener — the scan
does not continue past absolute anchors; by contrast the same
root-relative anchor does receive a listener when it is scanned. -/
theorem interceptLinks_external_stops_scan :
    interceptLinks [("https://example.com".data, []), ("/a".data, [])] none 0 =
      ([("https://example.com".data, []), ("/a".data, [])], none, 0) ∧
    interceptLinks [("/a".data, [])] none 0 =
      ([("/a".data, [0])], some 0, 1) :=
  ⟨by decide, by decide⟩

/-- The emitted prefix is a prefix of any of its extensions. -/
theorem startsWith_append_self (p t : List Char) :
    startsWith p (p ++ t) = true := by
  induction p with
  | nil => rfl
  | cons a p ih => simp [startsWith, ih]

/-- strings.HasPrefix holds exactly when the string extends the prefix. -/
theorem startsWith_true_iff (p : List Char) :
    ∀ s : List Char, startsWith p s = true ↔ ∃ t, s = p ++ t := by
  induction p with
  | nil => intro s; simp [startsWith]
  | cons a p ih =>
    intro s
    cases s with
    | nil => simp [startsWith]
    | cons b s =>
      simp only [startsWith, Bool.and_eq_true, beq_iff_eq, ih, List.cons_append,
        List.cons.injEq]
      constructor
      · rintro ⟨rfl, t, rfl⟩
        exact ⟨t, rfl, rfl⟩
      · rintro ⟨t, rfl, rfl⟩
        exact ⟨rfl, t, rfl⟩

/-- C5 (amended): an anchor whose target is empty, an absolute URL
(http, https, or scheme-relative) or a same-document anchor reference
makes the scan loop exit entirely at that anchor — such an anchor is
itself never intercepted (its listeners are untouched and no listener
is ever installed on it, regardless of the route table, which the scan
never consults), and no later anchor is processed. -/
theorem interceptLinks_terminal_href_exits (href : List Char) (ls : List Nat)
    (rest : List (List Char × List Nat)) (l : Option Nat) (n : Nat)
    (h : href = [] ∨ startsWith "http://".data href = true ∨
      startsWith "https://".data href = true ∨
      startsWith "//".data href = true ∨
      startsWith "#".data href = true) :
    interceptLinks ((href, ls) :: rest) l n = ((href, ls) :: rest, l, n) := by
  rcases h with rfl | h | h | h | h
  · rfl
  · obtain ⟨t, rfl⟩ := (startsWith_true_iff _ _).mp h
    rfl
  · obtain ⟨t, rfl⟩ := (startsWith_true_iff _ _).mp h
    rfl
  · obtain ⟨t, rfl⟩ := (startsWith_true_iff _ _).mp h
    rfl
  · obtain ⟨t, rfl⟩ := (startsWith_true_iff _ _).mp h
    rfl

/-- The C5 exit behaviour evaluated on a single absolute anchor: the scan
returns immediately, installing nothing. -/
theorem interceptLinks_terminal_href_exits_witness :
    interceptLinks [("https://example.com".data, [])] none 0 =
      ([("https://example.com".data, [])], none, 0) :=
  interceptLinks_terminal_href_exits "https://example.com".data [] [] none 0
    (Or.inr (Or.inr (Or.inl (by decide))))

/-- Skipping a leading character different from the separator does not
change the decoded hash remainder. -/
theorem getPathFromHash_cons_ne (c : Char) (t : List Char)
    (h : (c == '#') = false) :
    getPathFromHash (c :: t) = getPathFromHash t := by
  have hsplit : splitN2 '#' (c :: t) =
      (match splitN2 '#' t with
       | [] => [[c]]
       | p :: ps => (c :: p) :: ps) := by
    simp [splitN2, h]
  unfold getPathFromHash
  rw [hsplit]
  cases hs : splitN2 '#' t with
  | nil => rfl
  | cons p ps => cases ps <;> rfl

/-- C10: hash decoding is partial — getPathFromHash returns the text
after the first number sign exactly when the hash contains one and
panics (models as no result) otherwise; consequently the hash-changed
dispatch is defined exactly on hashes containing a number sign, and
initial-hash handling on nonempty hashes likewise requires one. -/
theorem getPathFromHash_partiality :
    (∀ h : List Char,
      getPathFromHash h =
        (if h.contains '#' then
          some ((h.dropWhile (fun c => !(c == '#'))).tail)
        else none)) ∧
    (∀ (routes : List route) (h : List Char),
      (watchHashDispatch routes h).isSome = h.contains '#') ∧
    (∀ (routes : List route) (h : List Char),
      (setInitialHashRun routes h).isSome = (h == [] || h.contains '#')) := by
  have key : ∀ h : List Char,
      getPathFromHash h =
        (if h.contains '#' then
          some ((h.dropWhile (fun c => !(c == '#'))).tail)
        else none) := by
    intro h
    induction h with
    | nil => rfl
    | cons c t ih =>
      by_cases hc : c = '#'
      · subst hc
        have h1 : getPathFromHash ('#' :: t) = some t := rfl
        have h2 : (('#' :: t).contains '#') = true := by simp
        rw [h1, if_pos h2]
        simp [List.dropWhile_cons]
      · have hcb : (c == '#') = false := by simp [hc]
        rw [getPathFromHash_cons_ne c t hcb, ih]
        have hcont : ((c :: t).contains '#') = (t.contains '#') := by
          simp [List.contains_cons, Ne.symm hc]
        rw [hcont]
        cases hct : t.contains '#'
        · simp
        · simp [List.dropWhile_cons, hcb]
  refine ⟨key, ?_, ?_⟩
  · intro routes h
    unfold watchHashDispatch
    rw [key h]
    cases hc : h.contains '#' <;> simp
  · intro routes h
    cases h with
    | nil => rfl
    | cons c t =>
      unfold setInitialHashRun
      rw [key]
      have hne : ((c :: t) == ([] : List Char)) = false := rfl
      rw [hne]
      cases hc : (c :: t).contains '#' <;> simp [hc]
